import Mathlib

/-!
Verification development for the LinDB storage-engine core.

Shallow embedding of the parts of the source relevant to the frozen claims:
WAL configuration (`config.WAL.GetPageSize`), the query-time field aggregator
(`aggregation.fieldAggregator.AggregateBySlot`), the broker row converter's
tag de-duplication (`BrokerRowProtoConverter.deDupTags`), the SST mmap reader
(`table.storeMMapReader`), the local replicator (`localReplicator.Replica`)
and the KV compaction job (`kv.compactJob`).

Go machine integers are embedded as `Int` (signed) or `Nat` (unsigned) with
explicit reductions where overflow matters; Go byte slices are `List Nat`;
fallible Go functions return `Except` or are paired with an `Option` error.
Components of the repository whose implementation is not part of the source
snapshot (external libraries such as roaring/snappy/flatbuffers, and repo
packages of which only callers are in the snapshot) are modelled from the
specification; each such definition carries a doc comment saying so.
-/

namespace LinDB

/-! ## Configuration: `WAL.GetPageSize` (storage config)

Source: `config` package, `WAL` struct.  `PageSize` is an `ltoml.Size`
(an integer number of bytes); embedded as `Int`. -/

/-- Embeds `WAL.GetPageSize`:
`if rc.PageSize <= 0 { return 128*1024*1024 }` ;
`if rc.PageSize >= 1024*1024*1024 { return 1024*1024*1024 }` ;
`return int64(rc.PageSize)`. -/
def WAL.GetPageSize (pageSize : Int) : Int :=
  if pageSize ≤ 0 then 128 * 1024 * 1024
  else if pageSize ≥ 1024 * 1024 * 1024 then 1024 * 1024 * 1024
  else pageSize

/-! ## Field aggregation (`aggregation/field_agg.go`)

`fieldAggregator.AggregateBySlot` works over `field.AggType` and
`collections.FloatArray`, which live outside the source snapshot and are
modelled from the spec.  Float64 values are modelled as rationals extended
with the two infinities (no NaN is needed by the claims). -/

/-- Model of a Go `float64` value: a finite rational or an infinity.
Modelled from the spec: the aggregator drops `+Inf` and otherwise combines
values with add/min/max. -/
inductive FloatVal where
  | posInf : FloatVal
  | negInf : FloatVal
  | fin (q : ℚ) : FloatVal
deriving DecidableEq, Repr

/-- Embeds `math.IsInf(value, 1)`: true exactly on positive infinity. -/
def FloatVal.isInf1 : FloatVal → Bool
  | .posInf => true
  | _ => false

/-- Modelled from the spec: float addition (`Sum → add`) on the model. -/
def FloatVal.add : FloatVal → FloatVal → FloatVal
  | .fin a, .fin b => .fin (a + b)
  | .posInf, _ => .posInf
  | .negInf, _ => .negInf
  | _, .posInf => .posInf
  | _, .negInf => .negInf

/-- Order on the float model: `-Inf ≤ finite ≤ +Inf`. -/
def FloatVal.fle : FloatVal → FloatVal → Bool
  | .negInf, _ => true
  | _, .posInf => true
  | .fin a, .fin b => a ≤ b
  | _, _ => false

/-- Modelled from the spec: float minimum (`Min → min`). -/
def FloatVal.fmin (a b : FloatVal) : FloatVal := if a.fle b then a else b

/-- Modelled from the spec: float maximum (`Max → max`). -/
def FloatVal.fmax (a b : FloatVal) : FloatVal := if a.fle b then b else a

/-- Modelled from the spec: `field.AggType`, the per-field aggregation types
(`Sum`, `Min`, `Max`, `First`, `Last`, `Count`). -/
inductive AggType where
  | Sum : AggType
  | Min : AggType
  | Max : AggType
  | First : AggType
  | Last : AggType
  | Count : AggType
deriving DecidableEq, Repr

/-- Modelled from the spec: `AggType.Aggregate` combines an existing value
with an incoming one (`Sum → add; Min → min; Max → max; First → keep first
non-empty; Last → keep last; Count → increment`). -/
def AggType.Aggregate : AggType → FloatVal → FloatVal → FloatVal
  | .Sum, a, b => a.add b
  | .Min, a, b => a.fmin b
  | .Max, a, b => a.fmax b
  | .First, a, _ => a
  | .Last, _, b => b
  | .Count, a, b => a.add b

/-- Modelled from the spec: `collections.FloatArray`, a fixed-capacity array
of optional float values addressed by slot position.  A `SetValue` outside
`[0, capacity)` is a no-op and `HasValue` is false there (`List.set` is a
no-op out of range, matching the bounds-checked Go array). -/
structure FloatArray where
  values : List (Option FloatVal)
deriving DecidableEq, Repr

/-- Modelled from the spec: `collections.NewFloatArray(capacity)`. -/
def FloatArray.new (capacity : Int) : FloatArray :=
  { values := List.replicate capacity.toNat none }

/-- Modelled from the spec: `FloatArray.HasValue(pos)`. -/
def FloatArray.hasValue (fa : FloatArray) (pos : Int) : Bool :=
  0 ≤ pos ∧ (fa.values.getD pos.toNat none).isSome

/-- Modelled from the spec: `FloatArray.GetValue(pos)` (meaningful only when
`HasValue(pos)`; defaults to 0 otherwise). -/
def FloatArray.getValue (fa : FloatArray) (pos : Int) : FloatVal :=
  (fa.values.getD pos.toNat none).getD (.fin 0)

/-- Modelled from the spec: `FloatArray.SetValue(pos, value)`; no-op when
`pos` is outside `[0, capacity)`. -/
def FloatArray.setValue (fa : FloatArray) (pos : Int) (v : FloatVal) : FloatArray :=
  if pos < 0 then fa else { values := fa.values.set pos.toNat (some v) }

/-- Embeds the state of `aggregation.fieldAggregator`: the (deduplicated)
aggregation types, the target slot range `[start, end]` and one optional
float array per aggregation type.  (`end` is a Lean keyword; the source
field `end` is named `endSlot` here.) -/
structure FieldAggregator where
  aggTypes : List AggType
  start : Int
  endSlot : Int
  fieldSeriesList : List (Option FloatArray)
deriving DecidableEq, Repr

/-- Embeds one iteration of the loop body of
`fieldAggregator.AggregateBySlot` for a single aggregation type and its
float array (`values == nil` is the `none` case). -/
def aggregateOne (startSlot endSlot pos : Int) (value : FloatVal) :
    AggType × Option FloatArray → Option FloatArray
  | (aggType, values) =>
    match values with
    | none =>
      some ((FloatArray.new (endSlot - startSlot + 1)).setValue pos value)
    | some fa =>
      if fa.hasValue pos then
        some (fa.setValue pos (aggType.Aggregate (fa.getValue pos) value))
      else
        some (fa.setValue pos value)

/-- Embeds `fieldAggregator.AggregateBySlot(slot, value)`: drop `+Inf`,
otherwise update the array of every aggregation type at `pos = slot - start`.
The Go loop indexes `fieldSeriesList[idx]` for `idx` over `aggTypes`; the
two lists have equal length by construction, embedded with `List.zip`. -/
def FieldAggregator.AggregateBySlot (a : FieldAggregator) (slot : Int) (value : FloatVal) :
    FieldAggregator :=
  if value.isInf1 then a
  else
    let pos := slot - a.start
    { a with fieldSeriesList :=
        (a.aggTypes.zip a.fieldSeriesList).map (aggregateOne a.start a.endSlot pos value) }

/-! ## Broker row converter: tag de-duplication
(`series/metric/row_proto_converter.go`, `BrokerRowProtoConverter.deDupTags`)

`deDupTags` first sorts the tag list by key (`sort.Sort` over `tag.KeyValues`,
whose ordering compares keys; the sort itself is Go library code outside the
snapshot and is not stable, so it is modelled as: the list is some key-sorted
permutation of the original) and then compacts it in place with a two-pointer
loop keeping, for each run of equal keys, the element of highest index. -/

/-- One protobuf tag `KeyValue` pair. -/
structure KeyValue where
  Key : String
  Value : String
deriving DecidableEq, Repr

/-- Default `KeyValue` used by the out-of-range branch of list indexing (the
Go code never actually indexes out of range, as proved below). -/
def dfltKV : KeyValue := { Key := "", Value := "" }

/-- Embeds one iteration of the two-pointer loop body of `deDupTags`
(`m.Tags` is the list, the pair is `(tags, slow)`, `high` the loop index):
`if m.Tags[slow].Key != m.Tags[high].Key { slow++ }` ;
`m.Tags[slow] = m.Tags[high]`. -/
def deDupStep (s : List KeyValue × Nat) (high : Nat) : List KeyValue × Nat :=
  let slow := if (s.1.getD s.2 dfltKV).Key ≠ (s.1.getD high dfltKV).Key then s.2 + 1 else s.2
  (s.1.set slow (s.1.getD high dfltKV), slow)

/-- Embeds the in-place part of `deDupTags` applied to the (already sorted)
tag list: if fewer than two tags, return unchanged; otherwise run the
two-pointer loop for `high = 1 .. len-1` and keep the prefix `[0, slow]`. -/
def deDupTags (tags : List KeyValue) : List KeyValue :=
  if tags.length < 2 then tags
  else
    let s := (List.range' 1 (tags.length - 1)).foldl deDupStep (tags, 0)
    s.1.take (s.2 + 1)

/-- Reference form of the two-pointer compaction: keep the last element of
every maximal run of adjacent equal keys.  Proved equal to `deDupTags`
(`deDupTags_eq_dedupAdj`). -/
def dedupAdj : KeyValue → List KeyValue → List KeyValue
  | cur, [] => [cur]
  | cur, nxt :: rest =>
    if cur.Key ≠ nxt.Key then cur :: dedupAdj nxt rest else dedupAdj nxt rest

/-- Helper: setting the final position of `l ++ [v]` replaces `v`. -/
lemma set_concat_length {α : Type} (l : List α) (v x : α) :
    (l ++ [v]).set l.length x = l ++ [x] := by
  induction l with
  | nil => rfl
  | cons a l ih => simp [List.set, ih]

/-- The two-pointer loop of `deDupTags` computes, over any suffix still to be
processed, the adjacent-run de-duplication of the processed part followed by
that suffix.  `orig` is the (sorted) list the loop started from, `h` the last
processed index, `out` the finalized prefix, `(a, slow)` the loop state. -/
lemma deDup_loop_spec (orig : List KeyValue) (rest : List KeyValue) :
    ∀ (h : Nat) (a : List KeyValue) (slow : Nat) (out : List KeyValue),
    a.length = orig.length →
    orig.drop (h + 1) = rest →
    (∀ i, h < i → a.getD i dfltKV = orig.getD i dfltKV) →
    a.take (slow + 1) = out ++ [orig.getD h dfltKV] →
    slow = out.length →
    slow ≤ h → h < orig.length →
    (((List.range' (h + 1) rest.length).foldl deDupStep (a, slow)).1.take
        (((List.range' (h + 1) rest.length).foldl deDupStep (a, slow)).2 + 1))
      = out ++ dedupAdj (orig.getD h dfltKV) rest := by
  induction rest with
  | nil =>
    intro h a slow out _ _ _ htake _ _ _
    simpa [dedupAdj] using htake
  | cons nxt rest' ih =>
    intro h a slow out hlen hdrop hsuffix htake hslow hsh hho
    have hh1 : h + 1 < orig.length := by
      have : (orig.drop (h + 1)).length = rest'.length + 1 := by
        rw [hdrop]; simp
      rw [List.length_drop] at this
      omega
    have hnxt : orig.getD (h + 1) dfltKV = nxt := by
      have : (orig.drop (h + 1))[0]? = some nxt := by rw [hdrop]; simp
      rw [List.getElem?_drop] at this
      simp [List.getD_eq_getElem?_getD, this]
    have hdrop' : orig.drop (h + 1 + 1) = rest' := by
      have : orig.drop (h + 1 + 1) = (orig.drop (h + 1)).drop 1 := by
        rw [List.drop_drop]
      rw [this, hdrop]; rfl
    -- the two reads performed by the loop body
    have hslowlt : slow < a.length := by omega
    have hread_slow : a.getD slow dfltKV = orig.getD h dfltKV := by
      have h1 : (a.take (slow + 1))[slow]? = a[slow]? := by
        rw [List.getElem?_take]; simp
      have h2 : (a.take (slow + 1))[slow]? = some (orig.getD h dfltKV) := by
        rw [htake, hslow, List.getElem?_concat_length]
      rw [List.getD_eq_getElem?_getD, ← h1, h2]
      rfl
    have hread_high : a.getD (h + 1) dfltKV = nxt := by
      rw [hsuffix (h + 1) (by omega), hnxt]
    -- unfold one loop iteration
    simp only [List.length_cons]
    rw [List.range'_succ, List.foldl_cons]
    by_cases hk : (orig.getD h dfltKV).Key = nxt.Key
    · -- equal keys: slow stays, current slot is overwritten
      have hstep : deDupStep (a, slow) (h + 1) = (a.set slow nxt, slow) := by
        simp only [deDupStep, hread_high]
        rw [if_neg (fun hne => hne (by rw [hread_slow]; exact hk))]
      rw [hstep]
      have htake' : (a.set slow nxt).take (slow + 1) = out ++ [nxt] := by
        rw [List.set_take, htake, hslow, set_concat_length]
      have := ih (h + 1) (a.set slow nxt) slow out
        (by rw [List.length_set]; exact hlen) hdrop'
        (fun i hi => by
          rw [List.getD_eq_getElem?_getD, List.getElem?_set_ne (by omega),
            ← List.getD_eq_getElem?_getD]
          exact hsuffix i (by omega))
        (by rw [htake', hnxt]) hslow (by omega) hh1
      rw [this, hnxt]
      have : dedupAdj (orig.getD h dfltKV) (nxt :: rest') = dedupAdj nxt rest' := by
        rw [dedupAdj, if_neg (fun hne => hne hk)]
      rw [this]
    · -- different keys: slow advances, next slot receives the element
      have hstep : deDupStep (a, slow) (h + 1) = (a.set (slow + 1) nxt, slow + 1) := by
        simp only [deDupStep, hread_high]
        rw [if_pos (show (a.getD slow dfltKV).Key ≠ nxt.Key by rw [hread_slow]; exact hk)]
      rw [hstep]
      have hs1lt : slow + 1 < a.length := by omega
      have htake' : (a.set (slow + 1) nxt).take (slow + 1 + 1)
          = (out ++ [orig.getD h dfltKV]) ++ [nxt] := by
        rw [List.set_take, List.take_succ, htake]
        obtain ⟨v, hv⟩ : ∃ v, a[slow + 1]? = some v :=
          ⟨a.get ⟨slow + 1, hs1lt⟩, by rw [List.getElem?_eq_getElem hs1lt]; rfl⟩
        rw [hv]
        have hlen2 : (out ++ [orig.getD h dfltKV]).length = slow + 1 := by
          simp [hslow]
        calc ((out ++ [orig.getD h dfltKV]) ++ (some v).toList).set (slow + 1) nxt
            = ((out ++ [orig.getD h dfltKV]) ++ [v]).set
                (out ++ [orig.getD h dfltKV]).length nxt := by rw [hlen2]; rfl
          _ = (out ++ [orig.getD h dfltKV]) ++ [nxt] := set_concat_length ..
      have := ih (h + 1) (a.set (slow + 1) nxt) (slow + 1) (out ++ [orig.getD h dfltKV])
        (by rw [List.length_set]; exact hlen) hdrop'
        (fun i hi => by
          rw [List.getD_eq_getElem?_getD, List.getElem?_set_ne (by omega),
            ← List.getD_eq_getElem?_getD]
          exact hsuffix i (by omega))
        (by rw [htake', hnxt]) (by simp [hslow]) (by omega) hh1
      rw [this, hnxt]
      have : dedupAdj (orig.getD h dfltKV) (nxt :: rest')
          = orig.getD h dfltKV :: dedupAdj nxt rest' := by
        rw [dedupAdj, if_pos hk]
      rw [this]
      simp

/-- The in-place two-pointer compaction equals the adjacent-run
de-duplication keeping the last element of each run. -/
lemma deDupTags_eq_dedupAdj (tags : List KeyValue) :
    deDupTags tags = match tags with
      | [] => []
      | t :: rest => dedupAdj t rest := by
  match tags with
  | [] => rfl
  | [t] => rfl
  | t :: u :: rest =>
    rw [deDupTags]
    have hlen : ¬ (t :: u :: rest).length < 2 := by simp
    rw [if_neg hlen]
    have := deDup_loop_spec (t :: u :: rest) (u :: rest) 0 (t :: u :: rest) 0 []
      rfl rfl (fun i _ => rfl) rfl rfl (by omega) (by simp)
    simp only [List.length_cons]
    have hn : (rest.length + 1 + 1) - 1 = (u :: rest).length := by simp
    rw [hn]
    simpa using this

/-- `dedupAdj` yields a sublist of its input. -/
lemma dedupAdj_sublist (cur : KeyValue) (xs : List KeyValue) :
    (dedupAdj cur xs).Sublist (cur :: xs) := by
  induction xs generalizing cur with
  | nil => simp [dedupAdj]
  | cons nxt rest ih =>
    rw [dedupAdj]
    by_cases hk : cur.Key = nxt.Key
    · rw [if_neg (fun hne => hne hk)]
      exact (ih nxt).trans (List.sublist_cons_self _ _)
    · rw [if_pos hk]
      exact (ih nxt).cons₂ cur

/-- On a key-sorted list, `dedupAdj` produces strictly increasing keys. -/
lemma dedupAdj_pairwise (cur : KeyValue) (xs : List KeyValue)
    (hs : List.Pairwise (fun a b => a.Key ≤ b.Key) (cur :: xs)) :
    List.Pairwise (fun a b => a.Key < b.Key) (dedupAdj cur xs) := by
  induction xs generalizing cur with
  | nil => simp [dedupAdj]
  | cons nxt rest ih =>
    have hs' : List.Pairwise (fun a b => a.Key ≤ b.Key) (nxt :: rest) :=
      hs.of_cons
    have hcurle : ∀ y ∈ nxt :: rest, cur.Key ≤ y.Key :=
      fun y hy => List.rel_of_pairwise_cons hs hy
    rw [dedupAdj]
    by_cases hk : cur.Key = nxt.Key
    · rw [if_neg (fun hne => hne hk)]
      exact ih nxt hs'
    · rw [if_pos hk]
      refine List.Pairwise.cons ?_ (ih nxt hs')
      intro y hy
      have hymem : y ∈ nxt :: rest := (dedupAdj_sublist nxt rest).mem hy
      have h1 : cur.Key < nxt.Key := lt_of_le_of_ne (hcurle nxt (by simp)) hk
      have h2 : nxt.Key ≤ y.Key := by
        rcases List.mem_cons.mp hymem with h | h
        · rw [h]
        · exact List.rel_of_pairwise_cons hs' h
      exact lt_of_lt_of_le h1 h2

/-- On a key-sorted list, `dedupAdj` keeps exactly the last occurrence of
every key: its filtrate at any key equals the last element of the input's
filtrate at that key. -/
lemma dedupAdj_filter (cur : KeyValue) (xs : List KeyValue)
    (hs : List.Pairwise (fun a b => a.Key ≤ b.Key) (cur :: xs)) (k : String) :
    (dedupAdj cur xs).filter (fun t => t.Key == k)
      = ((cur :: xs).filter (fun t => t.Key == k)).getLast?.toList := by
  induction xs generalizing cur with
  | nil =>
    by_cases hk : cur.Key = k <;> simp [dedupAdj, List.filter_cons, hk]
  | cons nxt rest ih =>
    have hs' : List.Pairwise (fun a b => a.Key ≤ b.Key) (nxt :: rest) :=
      hs.of_cons
    rw [dedupAdj]
    by_cases hkeys : cur.Key = nxt.Key
    · rw [if_neg (fun hne => hne hkeys)]
      rw [ih nxt hs']
      by_cases hck : cur.Key = k
      · -- `cur` is filtered in but a later equal key survives it
        have hnk : nxt.Key = k := by rw [← hkeys, hck]
        have : (cur :: nxt :: rest).filter (fun t => t.Key == k)
            = cur :: (nxt :: rest).filter (fun t => t.Key == k) := by
          simp [List.filter_cons, hck]
        rw [this]
        have hne : (nxt :: rest).filter (fun t => t.Key == k) ≠ [] := by
          have : nxt ∈ (nxt :: rest).filter (fun t => t.Key == k) :=
            List.mem_filter.mpr ⟨by simp, by simp [hnk]⟩
          exact List.ne_nil_of_mem this
        obtain ⟨b, l, hbl⟩ := List.exists_cons_of_ne_nil hne
        rw [hbl, List.getLast?_cons_cons]
      · have : (cur :: nxt :: rest).filter (fun t => t.Key == k)
            = (nxt :: rest).filter (fun t => t.Key == k) := by
          simp [List.filter_cons, hck]
        rw [this]
    · rw [if_pos hkeys]
      have hlt : cur.Key < nxt.Key :=
        lt_of_le_of_ne (List.rel_of_pairwise_cons hs (by simp)) hkeys
      by_cases hck : cur.Key = k
      · -- no later element carries key `k`: everything after has a larger key
        have hgt : ∀ y ∈ nxt :: rest, k < y.Key := by
          intro y hy
          rcases List.mem_cons.mp hy with h | h
          · rw [h, ← hck]; exact hlt
          · exact lt_of_lt_of_le (hck ▸ hlt) (List.rel_of_pairwise_cons hs' h)
        have hfilter_nil : (nxt :: rest).filter (fun t => t.Key == k) = [] := by
          rw [List.filter_eq_nil_iff]
          intro y hy
          simp only [beq_iff_eq]
          exact fun hyk => absurd (hyk ▸ hgt y hy) (lt_irrefl k)
        have hfilter_nil' : (dedupAdj nxt rest).filter (fun t => t.Key == k) = [] := by
          rw [List.filter_eq_nil_iff]
          intro y hy
          have hymem : y ∈ nxt :: rest := (dedupAdj_sublist nxt rest).mem hy
          simp only [beq_iff_eq]
          exact fun hyk => absurd (hyk ▸ hgt y hymem) (lt_irrefl k)
        have h1 : (cur :: dedupAdj nxt rest).filter (fun t => t.Key == k) = [cur] := by
          simp [List.filter_cons, hck, hfilter_nil']
        have h2 : (cur :: nxt :: rest).filter (fun t => t.Key == k) = [cur] := by
          simp [List.filter_cons, hck, hfilter_nil]
        rw [h1, h2]; rfl
      · have h1 : (cur :: dedupAdj nxt rest).filter (fun t => t.Key == k)
            = (dedupAdj nxt rest).filter (fun t => t.Key == k) := by
          simp [List.filter_cons, hck]
        have h2 : (cur :: nxt :: rest).filter (fun t => t.Key == k)
            = (nxt :: rest).filter (fun t => t.Key == k) := by
          simp [List.filter_cons, hck]
        rw [h1, h2]
        exact ih nxt hs'

/-! ## Helper lemmas for the field aggregator -/

/-- Reading back an in-range `setValue`. -/
lemma FloatArray.setValue_read (fa : FloatArray) (pos : Int) (v : FloatVal)
    (h0 : 0 ≤ pos) (hlt : pos.toNat < fa.values.length) :
    (fa.setValue pos v).getValue pos = v ∧ (fa.setValue pos v).hasValue pos = true := by
  unfold FloatArray.setValue FloatArray.getValue FloatArray.hasValue
  rw [if_neg (by omega : ¬ pos < 0)]
  simp [List.getD_eq_getElem?_getD, List.getElem?_set_self hlt, h0]

/-- The element of the aggregated series list at a valid index `i`. -/
lemma AggregateBySlot_entry (a : FieldAggregator) (slot : Int) (value : FloatVal)
    (hinf : value.isInf1 = false)
    (i : Nat) (t : AggType) (e : Option FloatArray)
    (ht : a.aggTypes[i]? = some t) (he : a.fieldSeriesList[i]? = some e) :
    (a.AggregateBySlot slot value).fieldSeriesList[i]? =
      some (aggregateOne a.start a.endSlot (slot - a.start) value (t, e)) := by
  unfold FieldAggregator.AggregateBySlot
  rw [if_neg (by simp [hinf])]
  simp only [List.getElem?_map, List.zip_eq_zipWith, List.getElem?_zipWith, ht, he]
  rfl

/-- Claim C8: `AggregateBySlot` leaves all state unchanged when the value is
`+Inf`; for any other value and for each of the aggregator's aggregation
types, a target position that already holds a value is replaced by
`aggType.Aggregate(old, value)` (add for `Sum`, min for `Min`, max for
`Max`), and an empty target position receives the incoming value
unchanged (an absent series array is first created with capacity
`end - start + 1`). -/
theorem aggregateBySlot_claim (a : FieldAggregator) (slot : Int) (value : FloatVal)
    (_hLen : a.fieldSeriesList.length = a.aggTypes.length) :
    (value.isInf1 = true → a.AggregateBySlot slot value = a) ∧
    (value.isInf1 = false →
      ∀ (i : Nat) (t : AggType) (e : Option FloatArray),
        a.aggTypes[i]? = some t → a.fieldSeriesList[i]? = some e →
        (e = none → 0 ≤ slot - a.start → (slot - a.start).toNat < (a.endSlot - a.start + 1).toNat →
          ∃ fa, (a.AggregateBySlot slot value).fieldSeriesList[i]? = some (some fa) ∧
            fa.hasValue (slot - a.start) = true ∧ fa.getValue (slot - a.start) = value) ∧
        (∀ old : FloatArray, e = some old → 0 ≤ slot - a.start →
            (slot - a.start).toNat < old.values.length →
          (old.hasValue (slot - a.start) = true →
            ∃ fa, (a.AggregateBySlot slot value).fieldSeriesList[i]? = some (some fa) ∧
              fa.getValue (slot - a.start)
                = t.Aggregate (old.getValue (slot - a.start)) value) ∧
          (old.hasValue (slot - a.start) = false →
            ∃ fa, (a.AggregateBySlot slot value).fieldSeriesList[i]? = some (some fa) ∧
              fa.getValue (slot - a.start) = value))) ∧
    (∀ x y : FloatVal, AggType.Sum.Aggregate x y = x.add y) ∧
    (∀ x y : FloatVal, AggType.Min.Aggregate x y = x.fmin y) ∧
    (∀ x y : FloatVal, AggType.Max.Aggregate x y = x.fmax y) := by
  refine ⟨?_, ?_, fun x y => rfl, fun x y => rfl, fun x y => rfl⟩
  · intro hinf
    unfold FieldAggregator.AggregateBySlot
    rw [if_pos (by simp [hinf])]
  · intro hinf i t e ht he
    have hentry := AggregateBySlot_entry a slot value hinf i t e ht he
    constructor
    · intro hnone h0 hcap
      subst hnone
      rw [hentry]
      refine ⟨(FloatArray.new (a.endSlot - a.start + 1)).setValue (slot - a.start) value,
        rfl, ?_, ?_⟩
      · exact ((FloatArray.new _).setValue_read _ _ h0 (by simpa [FloatArray.new] using hcap)).2
      · exact ((FloatArray.new _).setValue_read _ _ h0 (by simpa [FloatArray.new] using hcap)).1
    · intro old hsome h0 hlt
      subst hsome
      constructor
      · intro hfilled
        rw [hentry]
        refine ⟨old.setValue (slot - a.start)
            (t.Aggregate (old.getValue (slot - a.start)) value), ?_, ?_⟩
        · simp [aggregateOne, hfilled]
        · exact (old.setValue_read _ _ h0 hlt).1
      · intro hempty
        rw [hentry]
        refine ⟨old.setValue (slot - a.start) value, ?_, ?_⟩
        · simp [aggregateOne, hempty]
        · exact (old.setValue_read _ _ h0 hlt).1

/-- Concrete aggregator used to instantiate `aggregateBySlot_claim`. -/
def aggW : FieldAggregator :=
  { aggTypes := [.Sum, .Min]
    start := 10
    endSlot := 13
    fieldSeriesList := [some { values := [some (.fin 3), none, none, none] }, none] }

/-- Witness for claim C8: at slot 10 (position 0, already filled with 3) a
`Sum` aggregator accumulates `3 + 5`, and `+Inf` leaves the aggregator
unchanged. -/
theorem aggregateBySlot_claim_witness :
    (∃ fa, (aggW.AggregateBySlot 10 (.fin 5)).fieldSeriesList[0]? = some (some fa) ∧
      fa.getValue (10 - aggW.start) = AggType.Sum.Aggregate (FloatVal.fin 3) (.fin 5)) ∧
    aggW.AggregateBySlot 10 .posInf = aggW := by
  constructor
  · have h := (aggregateBySlot_claim aggW 10 (.fin 5) (by decide)).2.1 rfl
      0 .Sum (some { values := [some (.fin 3), none, none, none] }) rfl rfl
    have h2 := (h.2 { values := [some (.fin 3), none, none, none] } rfl
      (by decide) (by decide)).1 (by decide)
    obtain ⟨fa, hfa, hval⟩ := h2
    refine ⟨fa, hfa, ?_⟩
    rw [hval]
    rfl
  · exact (aggregateBySlot_claim aggW 10 .posInf (by decide)).1 rfl

/-! ## Claim theorems: configuration and tag de-duplication -/

/-- Claim C6 (code bug): the claim states the effective page size always lies
in `[128 MiB, 1 GiB]` and values below 128 MiB are never used as-is, but
`GetPageSize` only clamps non-positive values (to the 128 MiB default) and
values `≥ 1 GiB` (to 1 GiB): a configured positive value below 128 MiB — here
1 byte — is returned unchanged, contradicting the configuration file's own
comment that the available size is in `[128MB, 1GB]`. -/
theorem pageSize_code_bug_eval :
    WAL.GetPageSize 1 = 1 ∧ (1 : Int) < 128 * 1024 * 1024 ∧
    WAL.GetPageSize 0 = 128 * 1024 * 1024 ∧
    WAL.GetPageSize (-5) = 128 * 1024 * 1024 ∧
    WAL.GetPageSize (2 * 1024 * 1024 * 1024) = 1024 * 1024 * 1024 := by
  refine ⟨rfl, by decide, rfl, rfl, rfl⟩

/-- Claim C10: for a metric with at least two tags, after the de-duplication
step the tag list is strictly sorted by key (hence contains each key at most
once), and for each key exactly the occurrence with the highest index in the
sorted list is kept. -/
theorem deDupTags_claim (tags sorted : List KeyValue)
    (hlen : 2 ≤ tags.length)
    (hperm : sorted.Perm tags)
    (hsorted : List.Pairwise (fun a b => a.Key ≤ b.Key) sorted) :
    List.Pairwise (fun a b => a.Key < b.Key) (deDupTags sorted) ∧
    ∀ k : String, (deDupTags sorted).filter (fun t => t.Key == k)
        = ((sorted.filter (fun t => t.Key == k)).getLast?).toList := by
  have hslen : 2 ≤ sorted.length := by rw [hperm.length_eq]; exact hlen
  obtain ⟨t, u, rest, rfl⟩ : ∃ t u rest, sorted = t :: u :: rest := by
    match sorted, hslen with
    | t :: u :: rest, _ => exact ⟨t, u, rest, rfl⟩
  rw [deDupTags_eq_dedupAdj]
  exact ⟨dedupAdj_pairwise t (u :: rest) hsorted,
         fun k => dedupAdj_filter t (u :: rest) hsorted k⟩

/-- Witness input for claim C10: the client tag `a=2` is followed by the
appended tag `a=3` and a distinct key `b=1`. -/
def tagsW : List KeyValue := [⟨"b", "1"⟩, ⟨"a", "2"⟩, ⟨"a", "3"⟩]

/-- A key-sorted permutation of `tagsW`. -/
def sortedW : List KeyValue := [⟨"a", "2"⟩, ⟨"a", "3"⟩, ⟨"b", "1"⟩]

/-- Witness for claim C10: de-duplicating `sortedW` keeps `a=3` (the highest
index among key `a`) and `b=1`. -/
theorem deDupTags_claim_witness :
    (deDupTags sortedW).filter (fun t => t.Key == "a") = [⟨"a", "3"⟩] ∧
    (deDupTags sortedW).filter (fun t => t.Key == "b") = [⟨"b", "1"⟩] := by
  have hsorted : List.Pairwise (fun a b : KeyValue => a.Key ≤ b.Key) sortedW := by
    refine List.Pairwise.cons ?_ (List.Pairwise.cons ?_ (List.pairwise_singleton _ _))
    · intro b hb
      simp only [sortedW, List.mem_cons, List.mem_singleton] at hb
      rcases hb with rfl | rfl | h
      · exact le_refl _
      · show ("a" : String) ≤ "b"
        rw [String.le_iff_toList_le]; decide
      · cases h
    · intro b hb
      simp only [sortedW, List.mem_singleton] at hb
      subst hb
      show ("a" : String) ≤ "b"
      rw [String.le_iff_toList_le]; decide
  have h := deDupTags_claim tagsW sortedW (by decide) (by decide) hsorted
  exact ⟨by rw [h.2 "a"]; rfl, by rw [h.2 "b"]; rfl⟩

/-! ## SST mmap reader (`kv/table`, `storeMMapReader`)

The reader works over the mmapped file contents, embedded as a byte list.
The footer layout constants, the roaring keys bitmap and the fixed-offset
decoder live outside the source snapshot and are modelled from the spec
(`footer = [pos_of_offsets:u32_le | pos_of_keys:u32_le | crc32:u32_le |
magic:u64_le]`; keys bitmap = set of uint32 keys supporting contains/rank;
fixed-offset decoder = per-entry start offsets into the entries block). -/

/-- Little-endian `uint32` read at `pos` (bytes out of range read as 0). -/
def u32le (bs : List Nat) (pos : Nat) : Nat :=
  bs.getD pos 0 + 256 * bs.getD (pos + 1) 0 + 65536 * bs.getD (pos + 2) 0 +
    16777216 * bs.getD (pos + 3) 0

/-- Little-endian `uint64` read at `pos`. -/
def u64le (bs : List Nat) (pos : Nat) : Nat :=
  u32le bs pos + 4294967296 * u32le bs (pos + 4)

/-- Modelled from the spec: footer size = two `u32` positions + `u32` crc +
`u64` magic. -/
def sstFileFooterSize : Nat := 4 + 4 + 4 + 8

/-- Modelled from the spec: byte offset of the magic number inside the
footer (after the two positions and the crc). -/
def magicNumberAtFooter : Nat := 4 + 4 + 4

/-- Modelled from the spec: the expected 8-byte magic constant of an SST
file (its exact value is not part of the source snapshot; any fixed nonzero
64-bit constant models it). -/
def magicNumberOffsetFile : Nat := 0x123456789abcdef0

/-- Modelled from the spec: a roaring bitmap of `uint32` keys, kept as its
strictly increasing key list. -/
structure Bitmap where
  keys : List Nat
deriving DecidableEq, Repr

/-- Modelled from the spec: roaring `Contains`. -/
def Bitmap.Contains (b : Bitmap) (k : Nat) : Bool := b.keys.contains k

/-- Modelled from the spec: roaring `Rank(k)` counts the members `≤ k`
(so members are ranked starting from 1). -/
def Bitmap.Rank (b : Bitmap) (k : Nat) : Nat :=
  (b.keys.filter (fun x => x ≤ k)).length

/-- Modelled from the spec: roaring `GetCardinality`. -/
def Bitmap.GetCardinality (b : Bitmap) : Nat := b.keys.length

/-- Adjacent strict increase of a key list (roaring keys are sorted and
duplicate-free). -/
def strictlyIncreasing : List Nat → Bool
  | [] => true
  | [_] => true
  | a :: b :: rest => a < b && strictlyIncreasing (b :: rest)

/-- Modelled from the spec: `encoding.BitmapUnmarshal` decodes a serialised
keys bitmap; model format: `count:u32_le` then `count` strictly increasing
`u32_le` keys (trailing bytes ignored, decode fails on short or unsorted
data). -/
def BitmapUnmarshal (bs : List Nat) : Except String Bitmap :=
  let n := u32le bs 0
  if bs.length < 4 + 4 * n then .error "bitmap: short data"
  else
    let keys := (List.range n).map (fun i => u32le bs (4 + 4 * i))
    if strictlyIncreasing keys then .ok { keys := keys }
    else .error "bitmap: keys not strictly increasing"

/-- Modelled from the spec: `encoding.FixedOffsetDecoder`, the per-entry
start offsets into the entries block. -/
structure FixedOffsetDecoder where
  offsets : List Nat
deriving DecidableEq, Repr

/-- Modelled from the spec: `FixedOffsetDecoder.Size`. -/
def FixedOffsetDecoder.size (d : FixedOffsetDecoder) : Nat := d.offsets.length

/-- Modelled from the spec: `FixedOffsetDecoder.Unmarshal`; model format:
`count:u32_le` then `count` `u32_le` offsets (trailing bytes ignored). -/
def unmarshalFixedOffset (bs : List Nat) : Except String FixedOffsetDecoder :=
  let n := u32le bs 0
  if bs.length < 4 + 4 * n then .error "offsets: short data"
  else .ok { offsets := (List.range n).map (fun i => u32le bs (4 + 4 * i)) }

/-- Modelled from the spec: `FixedOffsetDecoder.GetBlock(idx, buf)` returns
the value slice of entry `idx` of the entries block, an error when `idx` or
the recorded offsets are out of range. -/
def FixedOffsetDecoder.GetBlock (d : FixedOffsetDecoder) (idx : Int) (entries : List Nat) :
    Except String (List Nat) :=
  if 0 ≤ idx ∧ idx.toNat < d.offsets.length then
    let start := d.offsets.getD idx.toNat 0
    let stop := if idx.toNat + 1 < d.offsets.length then d.offsets.getD (idx.toNat + 1) 0
                else entries.length
    if start ≤ stop ∧ stop ≤ entries.length then .ok ((entries.take stop).drop start)
    else .error "offsets: corrupt block bounds"
  else .error "offsets: idx out of range"

/-- Errors of the table reader: the sentinel `ErrKeyNotExist` is a distinct
value from every corruption/decode error. -/
inductive TableErr where
  | keyNotExist : TableErr
  | corrupt (msg : String) : TableErr
deriving DecidableEq, Repr

/-- Embeds the state of `table.storeMMapReader` after initialization:
the keys bitmap, the fixed-offset decoder and the entries block. -/
structure StoreMMapReader where
  keys : Bitmap
  offsets : FixedOffsetDecoder
  entriesBlock : List Nat
deriving DecidableEq, Repr

/-- `footerStart := len(r.fullBlock) - sstFileFooterSize` in `initialize`. -/
def footerStartOf (data : List Nat) : Nat := data.length - sstFileFooterSize

/-- The first `u32` of the footer (`posOfOffset` in `initialize`). -/
def posOfOffsetOf (data : List Nat) : Nat := u32le data (footerStartOf data)

/-- The second `u32` of the footer (`posOfKeys` in `initialize`). -/
def posOfKeysOf (data : List Nat) : Nat := u32le data (footerStartOf data + 4)

/-- Embeds `storeMMapReader.initialize`: validate the magic number, check
`sort.IntsAreSorted([0, posOfOffset, posOfKeys, footerStart])` (the `0 ≤`
part is trivial over `Nat`), decode the fixed offsets from
`fullBlock[posOfOffset:posOfKeys]` and the keys bitmap from
`fullBlock[posOfKeys:]`, require one offset per key, and keep
`fullBlock[:posOfOffset]` as the entries block.  The source's local
variables `footerStart`, `posOfOffset`, `posOfKeys` are the named functions
above. -/
def initializeReader (data : List Nat) : Except TableErr StoreMMapReader :=
  if u64le data (footerStartOf data + magicNumberAtFooter) ≠ magicNumberOffsetFile then
    .error (.corrupt "verify magic-number failure")
  else if ¬ (posOfOffsetOf data ≤ posOfKeysOf data ∧ posOfKeysOf data ≤ footerStartOf data) then
    .error (.corrupt "bad footer data")
  else
    match unmarshalFixedOffset ((data.take (posOfKeysOf data)).drop (posOfOffsetOf data)) with
    | .error e => .error (.corrupt e)
    | .ok offsets =>
      match BitmapUnmarshal (data.drop (posOfKeysOf data)) with
      | .error e => .error (.corrupt e)
      | .ok keys =>
        if offsets.size ≠ keys.GetCardinality then
          .error (.corrupt "num. of keys != num. of offsets")
        else
          .ok { keys := keys, offsets := offsets,
                entriesBlock := data.take (posOfOffsetOf data) }

/-- Embeds `newMMapStoreReader`: reject files shorter than the footer, then
initialize. -/
def newMMapStoreReader (data : List Nat) : Except TableErr StoreMMapReader :=
  if data.length < sstFileFooterSize then
    .error (.corrupt "length of sstfile is too short")
  else initializeReader data

/-- Embeds `storeMMapReader.getBlock`: delegate to the decoder (decoder
errors surface as corruption errors, never as `ErrKeyNotExist`). -/
def StoreMMapReader.getBlock (r : StoreMMapReader) (idx : Int) : Except TableErr (List Nat) :=
  match r.offsets.GetBlock idx r.entriesBlock with
  | .ok b => .ok b
  | .error e => .error (.corrupt e)

/-- Embeds `storeMMapReader.Get`: `ErrKeyNotExist` for absent keys,
otherwise the block at index `Rank(key) - 1`. -/
def StoreMMapReader.Get (r : StoreMMapReader) (key : Nat) : Except TableErr (List Nat) :=
  if ¬ r.keys.Contains key then .error .keyNotExist
  else
    let idx := r.keys.Rank key
    r.getBlock ((idx : Int) - 1)

/-- A bitmap member's rank is between 1 and the cardinality. -/
lemma Bitmap.rank_bounds (b : Bitmap) (k : Nat) (h : b.Contains k = true) :
    1 ≤ b.Rank k ∧ b.Rank k ≤ b.GetCardinality := by
  have hmem : k ∈ b.keys := by
    simpa [Bitmap.Contains] using h
  constructor
  · have : k ∈ b.keys.filter (fun x => x ≤ k) :=
      List.mem_filter.mpr ⟨hmem, by simp⟩
    have hne : b.keys.filter (fun x => x ≤ k) ≠ [] := List.ne_nil_of_mem this
    have := List.length_pos.mpr hne
    simpa [Bitmap.Rank] using this
  · simpa [Bitmap.Rank, Bitmap.GetCardinality] using
      List.length_filter_le (fun x => x ≤ k) b.keys

/-- Claim C2: for every open SST reader and key `k`, `Get(k)` returns
`ErrKeyNotExist` iff `k` is not in the keys bitmap; when `k` is contained,
`Get(k)` returns the entries-block slice located by the fixed-offset decoder
at index `Rank(k) - 1` (rank counted from 1). -/
theorem sstGet_claim (r : StoreMMapReader) (k : Nat) :
    (r.Get k = .error .keyNotExist ↔ r.keys.Contains k = false) ∧
    (r.keys.Contains k = true →
      r.Get k = match r.offsets.GetBlock ((r.keys.Rank k : Int) - 1) r.entriesBlock with
        | .ok b => .ok b
        | .error e => .error (.corrupt e)) := by
  constructor
  · constructor
    · intro hget
      by_contra hcon
      have hc : r.keys.Contains k = true := by
        cases hx : r.keys.Contains k
        · exact absurd hx hcon
        · rfl
      rw [StoreMMapReader.Get, if_neg (by simp [hc])] at hget
      rw [StoreMMapReader.getBlock] at hget
      cases hb : r.offsets.GetBlock ((r.keys.Rank k : Int) - 1) r.entriesBlock with
      | ok b => rw [hb] at hget; exact Except.noConfusion hget
      | error e =>
        rw [hb] at hget
        have := Except.error.inj hget
        exact TableErr.noConfusion this
    · intro hc
      rw [StoreMMapReader.Get, if_pos (by simp [hc])]
  · intro hc
    rw [StoreMMapReader.Get, if_neg (by simp [hc])]
    rfl

/-- Concrete open reader used to instantiate `sstGet_claim`: a single key 7
whose value block is the whole one-byte entries block. -/
def rGetW : StoreMMapReader :=
  { keys := { keys := [7] }, offsets := { offsets := [0] }, entriesBlock := [42] }

/-- Witness for claim C2: key 9 is absent (`ErrKeyNotExist`), key 7 is
present and served from the decoder at index `Rank(7) - 1 = 0`. -/
theorem sstGet_claim_witness :
    rGetW.Get 9 = .error .keyNotExist ∧ rGetW.Get 7 = .ok [42] := by
  constructor
  · exact (sstGet_claim rGetW 9).1.mpr (by decide)
  · rw [(sstGet_claim rGetW 7).2 (by decide)]
    rfl

/-- Claim C7: opening an SST file fails whenever the file is shorter than
the footer, and whenever the 8-byte footer magic differs from the expected
constant (no reader is produced in either case). -/
theorem sstOpen_magic_claim (data : List Nat) :
    (data.length < sstFileFooterSize →
      newMMapStoreReader data = .error (.corrupt "length of sstfile is too short")) ∧
    (sstFileFooterSize ≤ data.length →
      u64le data (footerStartOf data + magicNumberAtFooter) ≠ magicNumberOffsetFile →
      newMMapStoreReader data = .error (.corrupt "verify magic-number failure")) := by
  constructor
  · intro hshort
    rw [newMMapStoreReader, if_pos hshort]
  · intro hlong hmagic
    rw [newMMapStoreReader, if_neg (by omega)]
    rw [initializeReader]
    rw [if_pos hmagic]

/-- Witness for claim C7: a 19-byte file is too short; a 20-byte all-zero
file has magic 0, which differs from the expected constant. -/
theorem sstOpen_magic_claim_witness :
    newMMapStoreReader (List.replicate 19 0) = .error (.corrupt "length of sstfile is too short") ∧
    newMMapStoreReader (List.replicate 20 0) = .error (.corrupt "verify magic-number failure") := by
  constructor
  · exact (sstOpen_magic_claim (List.replicate 19 0)).1 (by decide)
  · exact (sstOpen_magic_claim (List.replicate 20 0)).2 (by decide) (by decide)

/-- Claim C9: beyond the magic check, reader construction succeeds only with
ordered footer positions (`0 ≤ posOfOffset ≤ posOfKeys ≤ footerStart`) and
one decoder offset per bitmap key; hence every successfully opened reader
has `offsets.size = keys cardinality`, and for every contained key the
rank-based index `Rank(k) - 1` is within `[0, offsets.size)`. -/
theorem sstReader_wellformed_claim (data : List Nat) (r : StoreMMapReader)
    (hok : newMMapStoreReader data = .ok r) :
    (sstFileFooterSize ≤ data.length ∧
     posOfOffsetOf data ≤ posOfKeysOf data ∧
     posOfKeysOf data ≤ footerStartOf data) ∧
    r.offsets.size = r.keys.GetCardinality ∧
    (∀ k, r.keys.Contains k = true →
      1 ≤ r.keys.Rank k ∧ r.keys.Rank k ≤ r.offsets.size) := by
  rw [newMMapStoreReader] at hok
  split at hok
  · exact Except.noConfusion hok
  next hshort =>
    rw [initializeReader] at hok
    split at hok
    · exact Except.noConfusion hok
    split at hok
    · exact Except.noConfusion hok
    next hpos =>
      split at hok
      · exact Except.noConfusion hok
      next offsets hoff =>
        split at hok
        · exact Except.noConfusion hok
        next keys hbm =>
          split at hok
          · exact Except.noConfusion hok
          next hsz =>
            have hr : r = ⟨keys, offsets, data.take (posOfOffsetOf data)⟩ :=
              (Except.ok.inj hok).symm
            subst hr
            have hpos' := not_not.mp hpos
            refine ⟨⟨by omega, hpos'.1, hpos'.2⟩, not_not.mp hsz, ?_⟩
            intro k hk
            have := Bitmap.rank_bounds keys k hk
            exact ⟨this.1, by rw [not_not.mp hsz]; exact this.2⟩

/-- A concrete well-formed 36-byte SST image: an 8-byte offsets block
(one offset 0), an 8-byte keys block (one key 7), and the 20-byte footer
`[posOfOffset=0 | posOfKeys=8 | crc=0 | magic]`. -/
def sstDataW : List Nat :=
  [1, 0, 0, 0, 0, 0, 0, 0,
   1, 0, 0, 0, 7, 0, 0, 0,
   0, 0, 0, 0, 8, 0, 0, 0, 0, 0, 0, 0,
   0xf0, 0xde, 0xbc, 0x9a, 0x78, 0x56, 0x34, 0x12]

/-- The reader produced by opening `sstDataW`. -/
def sstReaderW : StoreMMapReader :=
  { keys := { keys := [7] }, offsets := { offsets := [0] }, entriesBlock := [] }

/-- Witness for claim C9: opening the concrete image succeeds and the
resulting reader has one offset per key with in-bounds rank indexing. -/
theorem sstReader_wellformed_claim_witness :
    sstReaderW.offsets.size = sstReaderW.keys.GetCardinality ∧
    1 ≤ sstReaderW.keys.Rank 7 ∧ sstReaderW.keys.Rank 7 ≤ sstReaderW.offsets.size := by
  have h := sstReader_wellformed_claim sstDataW sstReaderW (by rfl)
  exact ⟨h.2.1, h.2.2 7 (by decide)⟩

/-! ## Local replicator (`replica/replicator_local.go`)

`localReplicator.Replica(sequence, msg)` validates the sequence, Snappy
decompresses, parses size-prefixed rows and writes them to the data family,
with a deferred handler that ignores the message when decompression set
`err` and always commits the sequence.  Snappy, the flatbuffers row format
and `tsdb.DataFamily` are external to the snapshot: they enter as an
environment of oracle functions, while the control flow of `Replica` and
the row-splitting loop of `StorageBatchRows.UnmarshalRows` are embedded
from the source. -/

/-- `flatbuffers.GetSizePrefix(block, 0)`: the leading `u32_le` size. -/
def getSizeHeader (bs : List Nat) : Nat := u32le bs 0

/-- The loop of `StorageBatchRows.UnmarshalRows` with an explicit fuel so
that it is structurally recursive (each iteration consumes at least 4 bytes
of a non-empty buffer, so fuel `= rowsBlock.length` never runs out). -/
def unmarshalRowsGo : Nat → List Nat → List (List Nat)
  | _, [] => []
  | 0, _ :: _ => []
  | fuel + 1, b :: rest =>
    ((b :: rest).drop 4).take (getSizeHeader (b :: rest))
      :: unmarshalRowsGo fuel ((b :: rest).drop (4 + getSizeHeader (b :: rest)))

/-- Embeds `StorageBatchRows.UnmarshalRows`: repeatedly read a `u32` size
header and cut the row block behind it, until the buffer is exhausted
(each row is kept as its raw bytes; flatbuffers decoding is external). -/
def unmarshalRows (rowsBlock : List Nat) : List (List Nat) :=
  unmarshalRowsGo rowsBlock.length rowsBlock

/-- The collaborators of the replicator that live outside the snapshot:
sequence validation by the data family, Snappy decompression, the row
timestamp decoder, and `family.WriteRows`' outcome. -/
structure ReplicaEnv where
  validateSequence : Int → Int → Bool
  uncompress : List Nat → Except String (List Nat)
  rowTimestamp : List Nat → Int
  writeRows : List (List Nat) → Option String

/-- Observable effects of one `Replica(sequence, msg)` call: the statistic
counters it bumps, the sequences passed to `CommitSequence` and to
`IgnoreMessage`, and the row batch passed to `family.WriteRows` (if any). -/
structure ReplicaResult where
  invalidSequences : Nat
  commits : List Int
  ignored : List Int
  wroteRows : Option (List (List Nat))
  decompressFailures : Nat
  replicaFailures : Nat
deriving DecidableEq, Repr

/-- Embeds `localReplicator.Replica(sequence, msg)`.  The `defer` block runs
on every path after validation: it calls `IgnoreMessage` iff the outer `err`
was set (only `Uncompress` assigns it; the `WriteRows` error is a shadowed
local) and then always calls `family.CommitSequence(leader, sequence)`. -/
def Replica (env : ReplicaEnv) (leader sequence : Int) (msg : List Nat) : ReplicaResult :=
  if ¬ env.validateSequence leader sequence then
    { invalidSequences := 1, commits := [], ignored := [], wroteRows := none,
      decompressFailures := 0, replicaFailures := 0 }
  else
    match env.uncompress msg with
    | .error _ =>
      { invalidSequences := 0, commits := [sequence], ignored := [sequence],
        wroteRows := none, decompressFailures := 1, replicaFailures := 0 }
    | .ok block =>
      if (unmarshalRows block).length = 0 then
        { invalidSequences := 0, commits := [sequence], ignored := [],
          wroteRows := none, decompressFailures := 0, replicaFailures := 0 }
      else
        match env.writeRows (unmarshalRows block) with
        | some _ =>
          { invalidSequences := 0, commits := [sequence], ignored := [],
            wroteRows := some (unmarshalRows block), decompressFailures := 0,
            replicaFailures := 1 }
        | none =>
          { invalidSequences := 0, commits := [sequence], ignored := [],
            wroteRows := some (unmarshalRows block), decompressFailures := 0,
            replicaFailures := 0 }

/-- Embeds `StorageBatchRows.Less(i, j)`: compare the timestamps of rows
`i` and `j` (ascending order). -/
def StorageBatchRows.Less (ts : List Nat → Int) (rows : List (List Nat)) (i j : Nat) : Bool :=
  ts (rows.getD i []) < ts (rows.getD j [])

/-- Claim C1: an invalid sequence drops the message — nothing is committed
and no rows are written; a valid sequence is committed exactly once on every
path, including decompression failure and `WriteRows` error. -/
theorem replicaCommit_claim (env : ReplicaEnv) (leader sequence : Int) (msg : List Nat) :
    (env.validateSequence leader sequence = false →
      (Replica env leader sequence msg).commits = [] ∧
      (Replica env leader sequence msg).wroteRows = none ∧
      (Replica env leader sequence msg).invalidSequences = 1) ∧
    (env.validateSequence leader sequence = true →
      (Replica env leader sequence msg).commits = [sequence]) := by
  constructor
  · intro hv
    rw [Replica, if_pos (by simp [hv])]
    exact ⟨rfl, rfl, rfl⟩
  · intro hv
    rw [Replica, if_neg (by simp [hv])]
    cases env.uncompress msg with
    | error e => rfl
    | ok block =>
      dsimp only
      by_cases hz : (unmarshalRows block).length = 0
      · rw [if_pos hz]
      · rw [if_neg hz]
        cases env.writeRows (unmarshalRows block) with
        | some e => rfl
        | none => rfl

/-- Environment whose family rejects every sequence. -/
def envInvalid : ReplicaEnv :=
  { validateSequence := fun _ _ => false
    uncompress := fun m => .ok m
    rowTimestamp := fun row => (row.getD 0 0 : Int)
    writeRows := fun _ => none }

/-- Environment whose decompression always fails. -/
def envBadSnappy : ReplicaEnv :=
  { validateSequence := fun _ _ => true
    uncompress := fun _ => .error "snappy: corrupt input"
    rowTimestamp := fun row => (row.getD 0 0 : Int)
    writeRows := fun _ => none }

/-- Environment whose `WriteRows` always fails. -/
def envBadWrite : ReplicaEnv :=
  { validateSequence := fun _ _ => true
    uncompress := fun m => .ok m
    rowTimestamp := fun row => (row.getD 0 0 : Int)
    writeRows := fun _ => some "write error" }

/-- A payload of two size-prefixed one-byte rows (row bytes `5` then `2`). -/
def msgRows : List Nat := [1, 0, 0, 0, 5, 1, 0, 0, 0, 2]

/-- Witness for claim C1: an invalid sequence commits nothing and writes no
rows; a decompression failure and a `WriteRows` failure still commit the
sequence exactly once. -/
theorem replicaCommit_claim_witness :
    ((Replica envInvalid 1 7 msgRows).commits = [] ∧
      (Replica envInvalid 1 7 msgRows).wroteRows = none ∧
      (Replica envInvalid 1 7 msgRows).invalidSequences = 1) ∧
    (Replica envBadSnappy 1 7 msgRows).commits = [7] ∧
    (Replica envBadWrite 1 7 msgRows).commits = [7] := by
  refine ⟨(replicaCommit_claim envInvalid 1 7 msgRows).1 rfl,
    (replicaCommit_claim envBadSnappy 1 7 msgRows).2 rfl,
    (replicaCommit_claim envBadWrite 1 7 msgRows).2 rfl⟩

/-- Environment for the C5 counterexample: decompression is the identity and
a row's timestamp is its first byte. -/
def envPlain : ReplicaEnv :=
  { validateSequence := fun _ _ => true
    uncompress := fun m => .ok m
    rowTimestamp := fun row => (row.getD 0 0 : Int)
    writeRows := fun _ => none }

/-- Counterexample to claim C5: `Replica` hands `family.WriteRows` the batch
`[[5], [2]]` exactly as parsed from the payload — with timestamps `5, 2`,
not ascending — so the batch is not sorted by row timestamp before
`family.WriteRows` is invoked. -/
theorem replicaSort_counterexample :
    (Replica envPlain 1 0 msgRows).wroteRows = some [[5], [2]] ∧
    ¬ List.Pairwise (fun a b => envPlain.rowTimestamp a ≤ envPlain.rowTimestamp b)
        [[5], [2]] := by
  constructor
  · rfl
  · intro h
    have h2 := (List.pairwise_cons.mp h).1 [2] (by simp)
    revert h2
    decide

/-- Claim C5 (amended): for every successfully decompressed payload whose
parsed batch is non-empty and whose sequence validates, the batch passed to
`family.WriteRows` is exactly the parsed rows in payload order — `Replica`
performs no sort (`StorageBatchRows` provides the timestamp-ascending
`Less`, embedded as `StorageBatchRows.Less`, but `Replica` never invokes a
sort with it). -/
theorem replicaRows_order_amended (env : ReplicaEnv) (leader sequence : Int)
    (msg block : List Nat)
    (hv : env.validateSequence leader sequence = true)
    (hu : env.uncompress msg = .ok block)
    (hne : (unmarshalRows block).length ≠ 0) :
    (Replica env leader sequence msg).wroteRows = some (unmarshalRows block) ∧
    (∀ ts rows i j, StorageBatchRows.Less ts rows i j
        = decide (ts (rows.getD i []) < ts (rows.getD j []))) := by
  refine ⟨?_, fun ts rows i j => rfl⟩
  rw [Replica, if_neg (by simp [hv]), hu]
  dsimp only
  rw [if_neg hne]
  cases env.writeRows (unmarshalRows block) with
  | some e => rfl
  | none => rfl

/-- Witness for the amended claim C5: the concrete payload `msgRows` is
handed over as the parsed batch `[[5], [2]]`. -/
theorem replicaRows_order_amended_witness :
    (Replica envPlain 1 0 [1, 0, 0, 0, 9]).wroteRows = some [[9]] := by
  have h := replicaRows_order_amended envPlain 1 0 [1, 0, 0, 0, 9] [1, 0, 0, 0, 9]
    rfl rfl (by decide)
  rw [h.1]
  rfl

/-! ## KV compaction job (`kv/compact_job.go`)

The job's own control flow (`Run`, `moveCompaction`, `mergeCompaction`,
`doMerge`'s grouping loop, the `compactFlusher`, `open/finish` of output
files, `installCompactionResults`, `cleanupCompaction`) is embedded from the
source.  Its collaborators — `version.Compaction`/`FileMeta`, the edit log,
the family (`commitEditLog`, `newTableBuilder`, `removePendingOutput`), the
table builder, the snapshot readers, the merged iterator and the
user-supplied `Merger` — are outside the snapshot and are modelled from the
spec; fallible ones are driven by oracle functions in `CompactEnv`. -/

/-- Modelled from the spec: `version.FileMeta{file_number, min_key, max_key,
size}`. -/
structure FileMeta where
  fileNumber : Int  -- 64-bit KV file number
  minKey : Nat
  maxKey : Nat
  size : Int
deriving DecidableEq, Repr

/-- Modelled from the spec: one edit-log record (delete a file from a level
or add a file to a level). -/
inductive EditOp where
  | deleteFile (level : Nat) (fileNumber : Int) : EditOp
  | newFile (level : Nat) (file : FileMeta) : EditOp
deriving DecidableEq, Repr

/-- Modelled from the spec: `version.Compaction` — the source level, the
picked input files at level `L` (`inputs[0]`) and level `L+1` (`inputs[1]`),
and the edit-log records accumulated by `DeleteFile`/`AddFile`. -/
structure Compaction where
  level : Nat
  levelInputs : List FileMeta
  levelUpInputs : List FileMeta
  editOps : List EditOp
deriving DecidableEq, Repr

/-- Modelled from the spec: a trivial move has a single file at the source
level and no overlap at the next level. -/
def Compaction.IsTrivialMove (c : Compaction) : Bool :=
  c.levelInputs.length == 1 && c.levelUpInputs.length == 0

/-- Modelled from the spec: `Compaction.GetLevelFiles` — the source-level
input files. -/
def Compaction.GetLevelFiles (c : Compaction) : List FileMeta := c.levelInputs

/-- Modelled from the spec: `Compaction.DeleteFile` records a deletion. -/
def Compaction.DeleteFile (c : Compaction) (level : Nat) (fn : Int) : Compaction :=
  { c with editOps := c.editOps ++ [.deleteFile level fn] }

/-- Modelled from the spec: `Compaction.AddFile` records an addition. -/
def Compaction.AddFile (c : Compaction) (level : Nat) (f : FileMeta) : Compaction :=
  { c with editOps := c.editOps ++ [.newFile level f] }

/-- Modelled from the spec: `Compaction.GetEditLog`. -/
def Compaction.GetEditLog (c : Compaction) : List EditOp := c.editOps

/-- Modelled from the spec: `Compaction.MarkInputDeletes` records a deletion
for every picked input file at its level. -/
def Compaction.MarkInputDeletes (c : Compaction) : Compaction :=
  { c with editOps := c.editOps
      ++ c.levelInputs.map (fun f => .deleteFile c.level f.fileNumber)
      ++ c.levelUpInputs.map (fun f => .deleteFile (c.level + 1) f.fileNumber) }

/-- Modelled from the spec: the version/manifest state of the KV family as
seen by the compact job — per-level file metadata, the pending output file
numbers, the committed edit logs, and the next file number to allocate. -/
structure FamilyState where
  levels : List (List FileMeta)
  pendingOutputs : List Int
  committedLogs : List (List EditOp)
  nextFileNumber : Int
deriving DecidableEq, Repr

/-- Modelled from the spec: applying one edit-log record to the levels. -/
def applyEditOp (levels : List (List FileMeta)) : EditOp → List (List FileMeta)
  | .deleteFile lvl fn =>
    levels.set lvl ((levels.getD lvl []).filter (fun f => f.fileNumber ≠ fn))
  | .newFile lvl f => levels.set lvl ((levels.getD lvl []) ++ [f])

/-- Modelled from the spec: `family.commitEditLog` applies the records to
the version metadata and appends one committed record to the manifest. -/
def FamilyState.commitEditLog (fam : FamilyState) (log : List EditOp) : FamilyState :=
  { fam with levels := log.foldl applyEditOp fam.levels
             committedLogs := fam.committedLogs ++ [log] }

/-- Modelled from the spec: the open table builder (`table.Builder`): its
file number and the keys/bytes added so far (keys are added in ascending
order, so min/max are the first/last added key). -/
structure Builder where
  fileNumber : Int  -- 64-bit KV file number
  keys : List Nat
  size : Int
deriving DecidableEq, Repr

/-- Modelled from the spec: `Builder.Count`. -/
def Builder.Count (b : Builder) : Nat := b.keys.length

/-- Modelled from the spec: `Builder.MinKey` (first added key). -/
def Builder.MinKey (b : Builder) : Nat := b.keys.getD 0 0

/-- Modelled from the spec: `Builder.MaxKey` (last added key). -/
def Builder.MaxKey (b : Builder) : Nat := (b.keys.getLast?).getD 0

/-- One `merger.Merge` invocation's observable behaviour: the
`flusher.Add(key, value)` calls it performs and whether it then returns an
error.  (A merger interacts with the job state only through the flusher.) -/
structure MergeCall where
  adds : List (Nat × List Nat)
  fails : Bool

/-- Oracles for the collaborators outside the snapshot: merger creation
failure, failure of the n-th `newTableBuilder` call, per-builder `Add` and
`Close` failures, per-file `snapshot.GetReader` failures, the key/value
sequence produced by the merged input iterator, and the behaviour of the
n-th `merger.Merge` invocation. -/
structure CompactEnv where
  mergerCreateFails : Bool
  newBuilderFails : Nat → Bool
  builderAddFails : Int → Nat → Bool
  builderCloseFails : Int → Bool
  readerFails : Int → Bool
  mergedEntries : List (Nat × List Nat)
  mergeCalls : Nat → MergeCall

/-- The state of one running compact job: the family-side state, the picked
compaction, the `compactionState` fields (`builder`, `outputs`,
`maxFileSize`) and two oracle counters (builders opened so far, `Merge`
invocations so far). -/
structure CJState where
  fam : FamilyState
  compaction : Compaction
  builder : Option Builder
  outputs : List FileMeta
  maxFileSize : Int
  buildersOpened : Nat
  mergeCallIdx : Nat
deriving DecidableEq, Repr

/-- Short-circuiting sequencing of state steps that may error. -/
def bindE (r : CJState × Option String) (f : CJState → CJState × Option String) :
    CJState × Option String :=
  match r with
  | (s, some e) => (s, some e)
  | (s, none) => f s

/-- Embeds `compactJob.openCompactionOutputFile`: `family.newTableBuilder`
allocates the next file number, registers it as a pending output and opens
an empty builder (modelled from the spec); on failure the state is
unchanged. -/
def openCompactionOutputFile (env : CompactEnv) (s : CJState) : CJState × Option String :=
  if env.newBuilderFails s.buildersOpened then
    ({ s with buildersOpened := s.buildersOpened + 1 }, some "create table builder error")
  else
    ({ s with
        builder := some { fileNumber := s.fam.nextFileNumber, keys := [], size := 0 }
        buildersOpened := s.buildersOpened + 1
        fam := { s.fam with
                  nextFileNumber := s.fam.nextFileNumber + 1
                  pendingOutputs := s.fam.pendingOutputs ++ [s.fam.nextFileNumber] } },
     none)

/-- Embeds `compactJob.finishCompactionOutputFile`: error when no builder is
open; a builder with no data is dropped without output; otherwise `Close`
(which may fail, keeping the builder), then the new file's metadata is added
to the outputs. -/
def finishCompactionOutputFile (env : CompactEnv) (s : CJState) : CJState × Option String :=
  match s.builder with
  | none => (s, some "store build is nil")
  | some b =>
    if b.Count == 0 then ({ s with builder := none }, none)
    else if env.builderCloseFails b.fileNumber then
      (s, some "close table builder error")
    else
      ({ s with builder := none
                outputs := s.outputs ++ [⟨b.fileNumber, b.MinKey, b.MaxKey, b.size⟩] },
       none)

/-- Embeds `compactFlusher.beforeAdd`: open an output file if no builder is
open. -/
def beforeAdd (env : CompactEnv) (s : CJState) : CJState × Option String :=
  match s.builder with
  | none => openCompactionOutputFile env s
  | some _ => (s, none)

/-- Embeds `compactFlusher.afterAdd`: close the current output file once it
is big enough. -/
def afterAdd (env : CompactEnv) (s : CJState) : CJState × Option String :=
  match s.builder with
  | none => (s, some "store build is nil")
  | some b =>
    if b.size ≥ s.maxFileSize then finishCompactionOutputFile env s
    else (s, none)

/-- Embeds `compactFlusher.Add(key, value)`: skip empty values, ensure a
builder, add the pair (builder `Add` may fail), then roll the file over if
it is big enough. -/
def flusherAdd (env : CompactEnv) (key : Nat) (value : List Nat) (s : CJState) :
    CJState × Option String :=
  if value.length == 0 then (s, none)
  else
    bindE (beforeAdd env s) (fun s1 =>
      match s1.builder with
      | none => (s1, some "store build is nil")
      | some b =>
        if env.builderAddFails b.fileNumber key then (s1, some "add key/value error")
        else
          afterAdd env
            { s1 with builder := some { b with keys := b.keys ++ [key]
                                               size := b.size + value.length } })

/-- Runs the `flusher.Add` calls of one `Merge` invocation in order,
stopping at the first error. -/
def runAdds (env : CompactEnv) : List (Nat × List Nat) → CJState → CJState × Option String
  | [], s => (s, none)
  | (k, v) :: rest, s => bindE (flusherAdd env k v s) (runAdds env rest)

/-- One `merger.Merge(key, values)` invocation: the merger performs its
`flusher.Add` calls and may return an error (behaviour given by the oracle
for the current invocation index; the key/values arguments determine that
behaviour in the real code and are therefore not re-read here). -/
def mergerMerge (env : CompactEnv) (s : CJState) : CJState × Option String :=
  bindE (runAdds env (env.mergeCalls s.mergeCallIdx).adds
          { s with mergeCallIdx := s.mergeCallIdx + 1 })
    (fun s1 =>
      if (env.mergeCalls s.mergeCallIdx).fails then (s1, some "merge error") else (s1, none))

/-- Embeds `compactJob.makeInputIterator`: obtain a reader for every input
file of both levels (failures abort); the merged iterator itself is
external, its key/value sequence is the oracle's `mergedEntries`. -/
def makeInputIterator (env : CompactEnv) (s : CJState) :
    Except String (List (Nat × List Nat)) :=
  match (s.compaction.levelInputs ++ s.compaction.levelUpInputs).find?
      (fun f => env.readerFails f.fileNumber) with
  | some _ => .error "get reader error"
  | none => .ok env.mergedEntries

/-- Embeds the iteration of `compactJob.doMerge`: group consecutive entries
with equal keys into `needMerge`, call `merger.Merge` at each key change and
once more for the final group, then close a still-open builder. -/
def doMergeLoop (env : CompactEnv) :
    List (Nat × List Nat) → List (List Nat) → Nat → Bool → CJState → CJState × Option String
  | [], needMerge, _, _, s =>
    bindE (if needMerge.length > 0 then mergerMerge env s else (s, none)) (fun s1 =>
      match s1.builder with
      | some _ => finishCompactionOutputFile env s1
      | none => (s1, none))
  | (key, value) :: rest, needMerge, previousKey, start, s =>
    if start || key == previousKey then
      doMergeLoop env rest (needMerge ++ [value]) key false s
    else
      bindE (mergerMerge env s) (fun s1 => doMergeLoop env rest [value] key false s1)

/-- Embeds `compactJob.doMerge`: create the merger, build the input
iterator, run the grouping loop. -/
def doMerge (env : CompactEnv) (s : CJState) : CJState × Option String :=
  if env.mergerCreateFails then (s, some "create merger error")
  else
    match makeInputIterator env s with
    | .error e => (s, some e)
    | .ok entries => doMergeLoop env entries [] 0 true s

/-- Embeds `compactJob.installCompactionResults`: mark the inputs deleted
(non-rollup), add every output to the target level (`L+1` for a compact
job, the same level for rollup), and commit one edit-log record. -/
def installCompactionResults (rollup : Bool) (s : CJState) : CJState :=
  let c1 := if rollup then s.compaction else s.compaction.MarkInputDeletes
  let level := if rollup then s.compaction.level else s.compaction.level + 1
  let c2 := s.outputs.foldl (fun c out => c.AddFile level out) c1
  { s with compaction := c2, fam := s.fam.commitEditLog c2.GetEditLog }

/-- Embeds `compactJob.cleanupCompaction`: abandon a still-open builder and
remove its file number from the pending outputs, then remove every output
file's number from the pending outputs. -/
def cleanupCompaction (s : CJState) : CJState :=
  let s1 := match s.builder with
    | some b =>
      { s with fam := { s.fam with
          pendingOutputs := s.fam.pendingOutputs.filter (fun x => x ≠ b.fileNumber) } }
    | none => s
  { s1 with fam := { s1.fam with
      pendingOutputs := s.outputs.foldl
        (fun acc o => acc.filter (fun x => x ≠ o.fileNumber)) s1.fam.pendingOutputs } }

/-- Embeds `compactJob.mergeCompaction`: run `doMerge`; on success install
the results; the deferred `cleanupCompaction` runs on every path. -/
def mergeCompaction (env : CompactEnv) (rollup : Bool) (s : CJState) :
    CJState × Option String :=
  match doMerge env s with
  | (s1, some err) => (cleanupCompaction s1, some err)
  | (s1, none) => (cleanupCompaction (installCompactionResults rollup s1), none)

/-- Embeds `compactJob.moveCompaction`: delete the single source file from
level `L`, add the identical metadata at `L+1`, commit the edit log —
metadata only. -/
def moveCompaction (s : CJState) : CJState :=
  let fileMeta := s.compaction.GetLevelFiles.getD 0 ⟨0, 0, 0, 0⟩
  let c1 := (s.compaction.DeleteFile s.compaction.level fileMeta.fileNumber).AddFile
    (s.compaction.level + 1) fileMeta
  { s with compaction := c1, fam := s.fam.commitEditLog c1.GetEditLog }

/-- Embeds `compactJob.Run`: a non-rollup trivial move only edits metadata;
otherwise run the merge compaction. -/
def CompactJob.Run (env : CompactEnv) (rollup : Bool) (s : CJState) :
    CJState × Option String :=
  if !rollup && s.compaction.IsTrivialMove then (moveCompaction s, none)
  else mergeCompaction env rollup s

/-! ### Frame invariant of a running merge job -/

/-- The file numbers currently owned by the job: the finished outputs, then
the open builder. -/
def jobFns (s : CJState) : List Int :=
  s.outputs.map (fun f => f.fileNumber) ++ (match s.builder with
    | some b => [b.fileNumber]
    | none => [])

/-- Frame invariant of `doMerge`: nothing is committed, the level metadata
is untouched, the pending outputs are the initial ones (`P0`) followed by
exactly this job's file numbers, and every job file number is at least the
initial next file number `N0` (freshly allocated). -/
def JobInv (CL : List (List EditOp)) (LV : List (List FileMeta))
    (P0 : List Int) (N0 : Int) (s : CJState) : Prop :=
  s.fam.committedLogs = CL ∧
  s.fam.levels = LV ∧
  N0 ≤ s.fam.nextFileNumber ∧
  s.fam.pendingOutputs = P0 ++ jobFns s ∧
  (∀ x ∈ jobFns s, N0 ≤ x)

/-- The open builder, if any, holds at least one key (true at every step
boundary of a successful merge; error states may violate it, which is
irrelevant since they abort). -/
def BuilderOK (s : CJState) : Prop :=
  ∀ b, s.builder = some b → 1 ≤ b.Count

/-- Composition of invariant preservation along `bindE` (`P` is preserved
everywhere, `Q` holds after the first step on success, `R` after the second
step on success). -/
lemma bindE_inv {P : CJState → Prop} (Q : CJState → Prop) {R : CJState → Prop}
    {r : CJState × Option String} {f : CJState → CJState × Option String}
    (h1 : P r.1 ∧ (r.2 = none → Q r.1))
    (h2 : ∀ t, P t → Q t → P (f t).1 ∧ ((f t).2 = none → R (f t).1)) :
    P (bindE r f).1 ∧ ((bindE r f).2 = none → R (bindE r f).1) := by
  obtain ⟨s, e⟩ := r
  cases e with
  | none => exact h2 s h1.1 (h1.2 rfl)
  | some err =>
    refine ⟨h1.1, ?_⟩
    intro h
    exact Option.noConfusion h

/-- Updating the open builder without changing its file number keeps the
frame invariant. -/
lemma builder_update_inv {CL LV P0 N0} (t : CJState) (b b' : Builder)
    (hbt : t.builder = some b) (hfn : b'.fileNumber = b.fileNumber)
    (hI : JobInv CL LV P0 N0 t) :
    JobInv CL LV P0 N0 { t with builder := some b' } := by
  obtain ⟨h1, h2, h3, h4, h5⟩ := hI
  have hjob : jobFns { t with builder := some b' } = jobFns t := by
    simp [jobFns, hbt, hfn]
  exact ⟨h1, h2, h3, by rw [hjob]; exact h4, by rw [hjob]; exact h5⟩

/-- A non-empty open builder satisfies the builder condition. -/
lemma builderOK_update (t : CJState) (b' : Builder) (h : 1 ≤ b'.Count) :
    BuilderOK { t with builder := some b' } := by
  intro x hx
  have hx' : b' = x := Option.some.inj hx
  rw [← hx']
  exact h

/-- `openCompactionOutputFile` preserves the frame invariant when no builder
is open (its only call site). -/
lemma open_inv {CL LV P0 N0} (env : CompactEnv) (s : CJState)
    (hI : JobInv CL LV P0 N0 s) (hb : s.builder = none) :
    JobInv CL LV P0 N0 (openCompactionOutputFile env s).1 := by
  obtain ⟨h1, h2, h3, h4, h5⟩ := hI
  rw [openCompactionOutputFile]
  split
  · exact ⟨h1, h2, h3, h4, h5⟩
  · refine ⟨h1, h2, ?_, ?_, ?_⟩
    · show N0 ≤ s.fam.nextFileNumber + 1
      omega
    · show s.fam.pendingOutputs ++ [s.fam.nextFileNumber]
        = P0 ++ (s.outputs.map (fun f => f.fileNumber) ++ [s.fam.nextFileNumber])
      rw [h4]
      simp [jobFns, hb]
    · intro x hx
      have hx' : x ∈ s.outputs.map (fun f => f.fileNumber) ++ [s.fam.nextFileNumber] := hx
      simp only [jobFns, hb, List.append_nil] at h5
      rcases List.mem_append.mp hx' with hmem | hmem
      · exact h5 x hmem
      · have : x = s.fam.nextFileNumber := by simpa using hmem
        omega

/-- `finishCompactionOutputFile` preserves the frame invariant and the
builder condition (given the builder condition on entry). -/
lemma finish_inv {CL LV P0 N0} (env : CompactEnv) (s : CJState)
    (hI : JobInv CL LV P0 N0 s) (hB : BuilderOK s) :
    JobInv CL LV P0 N0 (finishCompactionOutputFile env s).1 ∧
    BuilderOK (finishCompactionOutputFile env s).1 := by
  obtain ⟨h1, h2, h3, h4, h5⟩ := hI
  rw [finishCompactionOutputFile]
  cases hbuilder : s.builder with
  | none => exact ⟨⟨h1, h2, h3, h4, h5⟩, hB⟩
  | some b =>
    have hcount : b.keys.length ≠ 0 := by
      have := hB b hbuilder
      simp [Builder.Count] at this
      omega
    dsimp only
    rw [if_neg (by simp [Builder.Count, hcount])]
    split
    · exact ⟨⟨h1, h2, h3, h4, h5⟩, hB⟩
    · dsimp only
      have hfns : (s.outputs ++ [(⟨b.fileNumber, b.MinKey, b.MaxKey, b.size⟩ : FileMeta)]).map
          (fun f => f.fileNumber) ++ ([] : List Int) = jobFns s := by
        simp [jobFns, hbuilder]
      refine ⟨⟨h1, h2, h3, ?_, ?_⟩, ?_⟩
      · show s.fam.pendingOutputs = P0 ++
          ((s.outputs ++ [(⟨b.fileNumber, b.MinKey, b.MaxKey, b.size⟩ : FileMeta)]).map
            (fun f => f.fileNumber) ++ ([] : List Int))
        rw [hfns]
        exact h4
      · intro x hx
        have hx' : x ∈
            (s.outputs ++ [(⟨b.fileNumber, b.MinKey, b.MaxKey, b.size⟩ : FileMeta)]).map
              (fun f => f.fileNumber) ++ ([] : List Int) := hx
        rw [hfns] at hx'
        exact h5 x hx'
      · intro b' hb'
        exact Option.noConfusion hb'

/-- `flusherAdd` preserves the frame invariant, and the builder condition on
success. -/
lemma flusherAdd_inv {CL LV P0 N0} (env : CompactEnv) (k : Nat) (v : List Nat) (s : CJState)
    (hI : JobInv CL LV P0 N0 s) (hB : BuilderOK s) :
    JobInv CL LV P0 N0 (flusherAdd env k v s).1 ∧
    ((flusherAdd env k v s).2 = none → BuilderOK (flusherAdd env k v s).1) := by
  rw [flusherAdd]
  split
  · exact ⟨hI, fun _ => hB⟩
  · -- the add path: beforeAdd, builder.Add, afterAdd
    refine bindE_inv (fun _ => True) ⟨?_, fun _ => trivial⟩ ?_
    · rw [beforeAdd]
      cases hbs : s.builder with
      | none => exact open_inv env s hI hbs
      | some b => exact hI
    · intro t hP _
      cases hbt : t.builder with
      | none =>
        dsimp only
        exact ⟨hP, fun h => Option.noConfusion h⟩
      | some b =>
        dsimp only
        split
        · exact ⟨hP, fun h => Option.noConfusion h⟩
        · have hI2 := builder_update_inv t b
            ⟨b.fileNumber, b.keys ++ [k], b.size + v.length⟩ hbt rfl hP
          have hB2 := builderOK_update t ⟨b.fileNumber, b.keys ++ [k], b.size + v.length⟩
            (by simp [Builder.Count])
          rw [afterAdd]
          dsimp only
          split
          · exact ⟨(finish_inv env _ hI2 hB2).1, fun _ => (finish_inv env _ hI2 hB2).2⟩
          · exact ⟨hI2, fun _ => hB2⟩

/-- `runAdds` preserves the frame invariant, and the builder condition on
success. -/
lemma runAdds_inv {CL LV P0 N0} (env : CompactEnv) (adds : List (Nat × List Nat)) :
    ∀ s : CJState, JobInv CL LV P0 N0 s → BuilderOK s →
    JobInv CL LV P0 N0 (runAdds env adds s).1 ∧
    ((runAdds env adds s).2 = none → BuilderOK (runAdds env adds s).1) := by
  induction adds with
  | nil => exact fun s hI hB => ⟨hI, fun _ => hB⟩
  | cons kv rest ih =>
    intro s hI hB
    obtain ⟨k, v⟩ := kv
    rw [runAdds]
    exact bindE_inv BuilderOK (flusherAdd_inv env k v s hI hB)
      (fun t hP hQ => ih t hP hQ)

/-- `mergerMerge` preserves the frame invariant, and the builder condition
on success. -/
lemma mergerMerge_inv {CL LV P0 N0} (env : CompactEnv) (s : CJState)
    (hI : JobInv CL LV P0 N0 s) (hB : BuilderOK s) :
    JobInv CL LV P0 N0 (mergerMerge env s).1 ∧
    ((mergerMerge env s).2 = none → BuilderOK (mergerMerge env s).1) := by
  rw [mergerMerge]
  have hI' : JobInv CL LV P0 N0 { s with mergeCallIdx := s.mergeCallIdx + 1 } := by
    obtain ⟨h1, h2, h3, h4, h5⟩ := hI
    exact ⟨h1, h2, h3, h4, h5⟩
  have hB' : BuilderOK { s with mergeCallIdx := s.mergeCallIdx + 1 } := fun b hb => hB b hb
  refine bindE_inv BuilderOK
    (runAdds_inv env (env.mergeCalls s.mergeCallIdx).adds _ hI' hB') ?_
  intro t hP hQ
  split
  · exact ⟨hP, fun h => Option.noConfusion h⟩
  · exact ⟨hP, fun _ => hQ⟩

/-- The grouping loop of `doMerge` preserves the frame invariant, and the
builder condition on success. -/
lemma doMergeLoop_inv {CL LV P0 N0} (env : CompactEnv)
    (entries : List (Nat × List Nat)) :
    ∀ (needMerge : List (List Nat)) (previousKey : Nat) (start : Bool) (s : CJState),
    JobInv CL LV P0 N0 s → BuilderOK s →
    JobInv CL LV P0 N0 (doMergeLoop env entries needMerge previousKey start s).1 ∧
    ((doMergeLoop env entries needMerge previousKey start s).2 = none →
      BuilderOK (doMergeLoop env entries needMerge previousKey start s).1) := by
  induction entries with
  | nil =>
    intro needMerge previousKey start s hI hB
    rw [doMergeLoop]
    refine bindE_inv BuilderOK ?_ ?_
    · split
      · exact mergerMerge_inv env s hI hB
      · exact ⟨hI, fun _ => hB⟩
    · intro t hP hQ
      cases hbt : t.builder with
      | some b =>
        dsimp only
        exact ⟨(finish_inv env t hP hQ).1, fun _ => (finish_inv env t hP hQ).2⟩
      | none =>
        dsimp only
        exact ⟨hP, fun _ => hQ⟩
  | cons kv rest ih =>
    intro needMerge previousKey start s hI hB
    obtain ⟨key, value⟩ := kv
    rw [doMergeLoop]
    split
    · exact ih (needMerge ++ [value]) key false s hI hB
    · exact bindE_inv BuilderOK (mergerMerge_inv env s hI hB)
        (fun t hP hQ => ih [value] key false t hP hQ)

/-- `doMerge` preserves the frame invariant. -/
lemma doMerge_inv {CL LV P0 N0} (env : CompactEnv) (s : CJState)
    (hI : JobInv CL LV P0 N0 s) (hB : BuilderOK s) :
    JobInv CL LV P0 N0 (doMerge env s).1 := by
  rw [doMerge]
  split
  · exact hI
  · split
    · exact hI
    · exact (doMergeLoop_inv env _ [] 0 true s hI hB).1

/-- Filtering by keys that no element of `P` carries leaves `P` intact
inside an append. -/
lemma foldl_filter_append (outs : List FileMeta) :
    ∀ (P L : List Int),
    (∀ x ∈ P, ∀ o ∈ outs, x ≠ o.fileNumber) →
    outs.foldl (fun acc o => acc.filter (fun x => x ≠ o.fileNumber)) (P ++ L)
      = P ++ outs.foldl (fun acc o => acc.filter (fun x => x ≠ o.fileNumber)) L := by
  induction outs with
  | nil => intro P L _; rfl
  | cons o outs' ih =>
    intro P L h
    rw [List.foldl_cons, List.foldl_cons, List.filter_append]
    have hP : P.filter (fun x => x ≠ o.fileNumber) = P := by
      rw [List.filter_eq_self]
      intro a ha
      simpa using h a ha o (by simp)
    rw [hP]
    exact ih P _ (fun x hx o' ho' => h x hx o' (by simp [ho']))

/-- Folding removals over keys that cover every element of `L` empties
`L`. -/
lemma foldl_filter_nil (outs : List FileMeta) :
    ∀ L : List Int,
    (∀ x ∈ L, ∃ o ∈ outs, x = o.fileNumber) →
    outs.foldl (fun acc o => acc.filter (fun x => x ≠ o.fileNumber)) L = [] := by
  induction outs with
  | nil =>
    intro L h
    rw [List.eq_nil_iff_forall_not_mem]
    intro x hx
    obtain ⟨o, ho, _⟩ := h x hx
    exact absurd ho (List.not_mem_nil o)
  | cons o outs' ih =>
    intro L h
    rw [List.foldl_cons]
    refine ih _ ?_
    intro x hx
    rw [List.mem_filter] at hx
    obtain ⟨hxL, hxne⟩ := hx
    obtain ⟨o', ho', hxo'⟩ := h x hxL
    rcases List.mem_cons.mp ho' with rfl | ho'
    · exact absurd (by simpa using hxne) (by simp [hxo'])
    · exact ⟨o', ho', hxo'⟩

/-- `cleanupCompaction` on a state satisfying the frame invariant restores
the initial pending outputs exactly and touches neither commits nor
levels. -/
lemma cleanup_restores {CL LV P0 N0} (s : CJState)
    (hI : JobInv CL LV P0 N0 s) (hP0 : ∀ x ∈ P0, x < N0) :
    (cleanupCompaction s).fam.committedLogs = CL ∧
    (cleanupCompaction s).fam.levels = LV ∧
    (cleanupCompaction s).fam.pendingOutputs = P0 := by
  obtain ⟨h1, h2, _h3, h4, h5⟩ := hI
  have houtfns : ∀ o ∈ s.outputs, o.fileNumber ∈ jobFns s := by
    intro o ho
    simp only [jobFns, List.mem_append]
    exact Or.inl (List.mem_map.mpr ⟨o, ho, rfl⟩)
  have hPnotJob : ∀ x ∈ P0, ∀ y ∈ jobFns s, x ≠ y := by
    intro x hx y hy
    have := hP0 x hx
    have := h5 y hy
    omega
  rw [cleanupCompaction]
  cases hbuilder : s.builder with
  | none =>
    dsimp only
    refine ⟨h1, h2, ?_⟩
    rw [h4]
    rw [foldl_filter_append s.outputs P0 (jobFns s)
      (fun x hx o ho => hPnotJob x hx o.fileNumber (houtfns o ho))]
    rw [foldl_filter_nil s.outputs (jobFns s) ?_]
    · simp
    · intro x hx
      simp only [jobFns, hbuilder, List.append_nil, List.mem_map] at hx
      obtain ⟨o, ho, rfl⟩ := hx
      exact ⟨o, ho, rfl⟩
  | some b =>
    dsimp only
    refine ⟨h1, h2, ?_⟩
    rw [h4, List.filter_append]
    have hPkeep : P0.filter (fun x => x ≠ b.fileNumber) = P0 := by
      rw [List.filter_eq_self]
      intro a ha
      have hbmem : b.fileNumber ∈ jobFns s := by
        simp [jobFns, hbuilder]
      simpa using hPnotJob a ha b.fileNumber hbmem
    rw [hPkeep]
    rw [foldl_filter_append s.outputs P0 ((jobFns s).filter (fun x => x ≠ b.fileNumber))
      (fun x hx o ho => hPnotJob x hx o.fileNumber (houtfns o ho))]
    rw [foldl_filter_nil s.outputs _ ?_]
    · simp
    · intro x hx
      rw [List.mem_filter] at hx
      obtain ⟨hxjob, hxne⟩ := hx
      simp only [jobFns, hbuilder, List.mem_append, List.mem_map] at hxjob
      rcases hxjob with ⟨o, ho, rfl⟩ | hxb
      · exact ⟨o, ho, rfl⟩
      · have : x = b.fileNumber := by simpa using hxb
        exact absurd (by simpa using hxne) (by simp [this])

/-- Claim C3: if any step of a merge compaction fails (merger creation,
input-iterator construction, any `Merge` call — including builder `Add`
failures inside it — or closing the output builder), the job aborts
atomically: no edit-log record is committed (so `installCompactionResults`
was not reached), the level metadata — in particular the input files — is
unchanged, and every pending output registered by this job is removed,
leaving the pending set exactly as before. -/
theorem mergeAbort_claim (env : CompactEnv) (rollup : Bool) (s s' : CJState) (err : String)
    (hb : s.builder = none) (ho : s.outputs = [])
    (hfresh : ∀ x ∈ s.fam.pendingOutputs, x < s.fam.nextFileNumber)
    (hrun : mergeCompaction env rollup s = (s', some err)) :
    s'.fam.committedLogs = s.fam.committedLogs ∧
    s'.fam.levels = s.fam.levels ∧
    s'.fam.pendingOutputs = s.fam.pendingOutputs := by
  have hI0 : JobInv s.fam.committedLogs s.fam.levels s.fam.pendingOutputs
      s.fam.nextFileNumber s := by
    refine ⟨rfl, rfl, le_refl _, ?_, ?_⟩
    · simp [jobFns, hb, ho]
    · intro x hx
      simp [jobFns, hb, ho] at hx
  have hB0 : BuilderOK s := by
    intro b hbb
    rw [hb] at hbb
    exact Option.noConfusion hbb
  rw [mergeCompaction] at hrun
  cases hdm : doMerge env s with
  | mk s1 e =>
    rw [hdm] at hrun
    cases e with
    | none =>
      dsimp only at hrun
      have := congrArg Prod.snd hrun
      simp at this
    | some e0 =>
      dsimp only at hrun
      have hs' : s' = cleanupCompaction s1 := by
        have := congrArg Prod.fst hrun
        simpa using this.symm
      have hI1 : JobInv s.fam.committedLogs s.fam.levels s.fam.pendingOutputs
          s.fam.nextFileNumber s1 := by
        have hall := doMerge_inv env s hI0 hB0
        rw [hdm] at hall
        exact hall
      rw [hs']
      exact cleanup_restores s1 hI1 hfresh

/-- Oracle environment for the C3 witness: readers and builders work, the
first `Merge` call adds one pair, the second fails. -/
def envCW : CompactEnv :=
  { mergerCreateFails := false
    newBuilderFails := fun _ => false
    builderAddFails := fun _ _ => false
    builderCloseFails := fun _ => false
    readerFails := fun _ => false
    mergedEntries := [(1, [9]), (2, [8])]
    mergeCalls := fun n => if n == 0 then ⟨[(1, [9])], false⟩ else ⟨[(2, [8])], true⟩ }

/-- Initial job state for the C3 witness: one input file at level 0, one
unrelated pending output `3`, next file number 10, no open builder. -/
def sCW : CJState :=
  { fam := { levels := [[⟨3, 1, 5, 100⟩]]
             pendingOutputs := [3]
             committedLogs := []
             nextFileNumber := 10 }
    compaction := { level := 0, levelInputs := [⟨3, 1, 5, 100⟩], levelUpInputs := []
                    editOps := [] }
    builder := none
    outputs := []
    maxFileSize := 1000
    buildersOpened := 0
    mergeCallIdx := 0 }

/-- Witness for claim C3: the second `Merge` call fails after the job opened
output file 10; afterwards nothing is committed, the levels are untouched
and pending output 10 is gone — the pending set is `[3]` again. -/
theorem mergeAbort_claim_witness :
    (mergeCompaction envCW false sCW).1.fam.committedLogs = [] ∧
    (mergeCompaction envCW false sCW).1.fam.levels = [[⟨3, 1, 5, 100⟩]] ∧
    (mergeCompaction envCW false sCW).1.fam.pendingOutputs = [3] := by
  have h := mergeAbort_claim envCW false sCW (mergeCompaction envCW false sCW).1
    "merge error" rfl rfl (by decide) (by rfl)
  exact ⟨h.1, h.2.1, h.2.2⟩

/-- Claim C4: a non-rollup trivial move only edits metadata: the run takes
the move path with no error, the single committed edit log deletes the
file's metadata from level `L` and adds the identical metadata at `L+1`, no
file number is allocated, no builder is opened, no output is produced, and
the level metadata changes by exactly that delete-then-add. -/
theorem trivialMove_claim (env : CompactEnv) (s : CJState)
    (htriv : s.compaction.IsTrivialMove = true)
    (hedit : s.compaction.editOps = []) :
    CompactJob.Run env false s = (moveCompaction s, none) ∧
    (moveCompaction s).fam.committedLogs = s.fam.committedLogs ++
      [[EditOp.deleteFile s.compaction.level
          (s.compaction.levelInputs.getD 0 ⟨0, 0, 0, 0⟩).fileNumber,
        EditOp.newFile (s.compaction.level + 1) (s.compaction.levelInputs.getD 0 ⟨0, 0, 0, 0⟩)]] ∧
    (moveCompaction s).fam.nextFileNumber = s.fam.nextFileNumber ∧
    (moveCompaction s).fam.pendingOutputs = s.fam.pendingOutputs ∧
    (moveCompaction s).builder = s.builder ∧
    (moveCompaction s).outputs = s.outputs ∧
    (moveCompaction s).fam.levels =
      applyEditOp (applyEditOp s.fam.levels
        (.deleteFile s.compaction.level (s.compaction.levelInputs.getD 0 ⟨0, 0, 0, 0⟩).fileNumber))
        (.newFile (s.compaction.level + 1) (s.compaction.levelInputs.getD 0 ⟨0, 0, 0, 0⟩)) := by
  refine ⟨?_, ?_, ?_, ?_, ?_, ?_, ?_⟩
  · rw [CompactJob.Run, if_pos (by simp [htriv])]
  · simp [moveCompaction, FamilyState.commitEditLog, Compaction.GetEditLog,
      Compaction.DeleteFile, Compaction.AddFile, Compaction.GetLevelFiles, hedit]
  · rfl
  · rfl
  · rfl
  · rfl
  · simp [moveCompaction, FamilyState.commitEditLog, Compaction.GetEditLog,
      Compaction.DeleteFile, Compaction.AddFile, Compaction.GetLevelFiles, hedit]

/-- Initial job state for the C4 witness: level-0 file 7 with no overlap at
level 1, next file number 8. -/
def sMoveW : CJState :=
  { fam := { levels := [[⟨7, 1, 5, 100⟩], []]
             pendingOutputs := []
             committedLogs := []
             nextFileNumber := 8 }
    compaction := { level := 0, levelInputs := [⟨7, 1, 5, 100⟩], levelUpInputs := []
                    editOps := [] }
    builder := none
    outputs := []
    maxFileSize := 1000
    buildersOpened := 0
    mergeCallIdx := 0 }

/-- Witness for claim C4: running the trivial move commits exactly
`{delete 7@L0, add 7@L1}`, allocates no file number, and the file's
metadata moves unchanged from level 0 to level 1. -/
theorem trivialMove_claim_witness :
    CompactJob.Run envCW false sMoveW = (moveCompaction sMoveW, none) ∧
    (moveCompaction sMoveW).fam.committedLogs =
      [[EditOp.deleteFile 0 7, EditOp.newFile 1 ⟨7, 1, 5, 100⟩]] ∧
    (moveCompaction sMoveW).fam.nextFileNumber = 8 ∧
    (moveCompaction sMoveW).fam.levels = [[], [⟨7, 1, 5, 100⟩]] := by
  have h := trivialMove_claim envCW sMoveW (by decide) rfl
  refine ⟨h.1, ?_, h.2.2.1, ?_⟩
  · rw [h.2.1]
    rfl
  · rw [h.2.2.2.2.2.2]
    rfl

end LinDB
